import Mathlib

/-!
Verification development for the miutils parallel XML log processor.

The definitions below are shallow embeddings of the C++ sources:
`in_order_executor.cpp`, `extractor.cpp`, `src/splitter.cpp`,
`src/action_list.cpp`, `src/sorter.cpp`, `src/actions/echo_packet_if_new.cpp`,
`src/actions/update_reorder_window.cpp`, `src/actions/utils.cpp` and
`main.cpp`.  Machine integers (`long`, `time_t`) are modelled by `Nat`/`Int`;
the values handled by the program (sequence numbers, line numbers, byte
counts, microsecond timestamps) are far below 2^63, so no wrap-around
modelling is needed.  C++ `std::function` closures are modelled by explicit
payload values or state-transformer functions.  Fallible operations return
`Option`.
-/

namespace Miutils

/-! ## In-order executor (`in_order_executor.cpp`)

`OrderedTask` mirrors `struct OrderedTask { long seq_num; std::function<void()> func; }`
(`include/in_order_executor.hpp`).  The closure is represented by an abstract
payload `α` (the side effect the closure would perform when run).  Sequence
numbers are dense naturals starting at 0, as produced by the splitter. -/

structure OrderedTask (α : Type) where
  seq_num : Nat
  func : α
  deriving DecidableEq, Repr

/-- The pending priority queue `g_pending_task`
(`std::priority_queue<OrderedTask, vector, greater>`, a min-heap on
`seq_num`) is modelled as a list kept sorted by ascending `seq_num`;
`heapPush` models a `push`. -/
def heapPush {α : Type} (t : OrderedTask α) : List (OrderedTask α) → List (OrderedTask α)
  | [] => [t]
  | u :: rest => if t.seq_num ≤ u.seq_num then t :: u :: rest else u :: heapPush t rest

/-- The inner drain loop of `smain_in_order_executor` (lines 124-130):
`while (!g_pending_task.empty() && g_pending_task.top().seq_num == g_next_task_num)
 { top().func(); pop(); ++g_next_task_num; }`.
Returns (tasks executed in order, remaining heap, new `g_next_task_num`). -/
def drainTasks {α : Type} : List (OrderedTask α) → Nat →
    List (OrderedTask α) × List (OrderedTask α) × Nat
  | [], next => ([], [], next)
  | t :: rest, next =>
    if t.seq_num = next then
      let r := drainTasks rest (next + 1)
      (t :: r.1, r.2.1, r.2.2)
    else ([], t :: rest, next)

/-- One executor round for one arriving task: the producer's
`insert_ordered_task` pushes onto the heap and wakes the executor, which
then drains every contiguous run whose minimum equals `g_next_task_num`.
`execRun` folds this over the whole arrival sequence. -/
def execRun {α : Type} : List (OrderedTask α) → List (OrderedTask α) → Nat →
    List (OrderedTask α) × List (OrderedTask α) × Nat
  | [], heap, next => ([], heap, next)
  | t :: arr, heap, next =>
    let d := drainTasks (heapPush t heap) next
    let r := execRun arr d.2.1 d.2.2
    (d.1 ++ r.1, r.2.1, r.2.2)

/-- The executor thread `smain_in_order_executor`, viewed as a function of
the sequence in which the extractor threads deliver tasks:
it starts from an empty heap and `g_next_task_num = 0`
(`start_in_order_executor`), and processes each arrival as in `execRun`.
Result: (tasks executed in execution order, final heap, final `g_next_task_num`). -/
def smain_in_order_executor {α : Type} (arrivals : List (OrderedTask α)) :
    List (OrderedTask α) × List (OrderedTask α) × Nat :=
  execRun arrivals [] 0

/-- The task carrying sequence number `i` built from the payload family `f`. -/
def mkTask {α : Type} (f : Nat → α) (i : Nat) : OrderedTask α := ⟨i, f i⟩

/-- The canonical task list for a run of `K` jobs: sequence numbers
`0, 1, …, K-1` with payloads `f 0, …, f (K-1)`. -/
def canonicalTasks {α : Type} (K : Nat) (f : Nat → α) : List (OrderedTask α) :=
  (List.range K).map (mkTask f)

/-- Ordered insertion of a sequence number into a sorted index list;
index-level image of `heapPush`. -/
def seqInsert (j : Nat) : List Nat → List Nat
  | [] => [j]
  | k :: rest => if j ≤ k then j :: k :: rest else k :: seqInsert j rest

/-! Job structure (`extractor.hpp`): the unit of work handed from the
splitter to the extractor pool.  `job_num` is the dense 0-based sequence
number (C++ `long`). -/

structure Job where
  job_num : Nat
  xml_string : String
  file_name : String
  start_line_number : Nat
  end_line_number : Nat
  deriving DecidableEq, Repr

/-! Property-tree model (`boost::property_tree::ptree` as used by
`src/actions/utils.cpp`): every node has a data string and an ordered list
of named children; XML attributes live under a `<xmlattr>` child. -/

structure PTree where
  data : String
  children : List (String × PTree)

/-- Boost `tree.get_child(name)` restricted to a single path segment:
the first child carrying the given name, if any (absence throws
`ptree_bad_path` in C++, modelled by `none`). -/
def PTree.get_child (t : PTree) (name : String) : Option PTree :=
  (t.children.find? (fun c => c.1 == name)).map (·.2)

/-- Boost `tree.get("<xmlattr>." ++ key, default)`: attribute lookup with a
default value (used by `get_packet_type`). -/
def PTree.getAttrDefault (t : PTree) (key dflt : String) : String :=
  match t.get_child "<xmlattr>" with
  | none => dflt
  | some a =>
    match a.get_child key with
    | none => dflt
    | some k => k.data

/-- Boost `tree.get<std::string>("<xmlattr>." ++ key)`: attribute lookup
that throws `ptree_bad_path` (modelled by `none`) when absent (used by
`get_packet_time_stamp`). -/
def PTree.getAttrStrict (t : PTree) (key : String) : Option String :=
  (t.get_child "<xmlattr>").bind (fun a => (a.get_child key).map (·.data))

/-- Loop body of `get_packet_type` (`src/actions/utils.cpp`): scan the
children of `dm_log_packet` for the first `pair` child whose `key`
attribute (default-empty lookup) is `type_id` and return its data. -/
def typeIdLoop : List (String × PTree) → String
  | [] => ""
  | (n, sub) :: rest =>
    if n == "pair" && sub.getAttrDefault "key" "" == "type_id" then sub.data
    else typeIdLoop rest

/-- Return the `type_id` field of the packet; `none` models the
`ptree_bad_path` exception when there is no `dm_log_packet` child. -/
def get_packet_type (tree : PTree) : Option String :=
  (tree.get_child "dm_log_packet").map (fun root => typeIdLoop root.children)

/-- Return true iff the tree has a `pair` child with attribute
`key="type_id"` and the given data (`is_packet_having_type` in
`src/actions/utils.cpp`); exceptions propagate as `none`. -/
def is_packet_having_type (tree : PTree) (type_id : String) : Option Bool :=
  (get_packet_type tree).map (fun t => t == type_id)

/-- Loop body of `get_packet_time_stamp` (`src/actions/utils.cpp`): scan
for the first `pair` child with `key="timestamp"` (strict attribute
lookup: a `pair` child without a `key` attribute throws, modelled by
`none`); default result is the string `timestamp N/A`. -/
def timeStampLoop : List (String × PTree) → Option String
  | [] => some "timestamp N/A"
  | (n, sub) :: rest =>
    if n == "pair" then
      match sub.getAttrStrict "key" with
      | none => none
      | some k => if k == "timestamp" then some sub.data else timeStampLoop rest
    else timeStampLoop rest

/-- Find the timestamp string of a packet
(`get_packet_time_stamp`, `src/actions/utils.cpp`). -/
def get_packet_time_stamp (tree : PTree) : Option String :=
  (tree.get_child "dm_log_packet").bind (fun root => timeStampLoop root.children)

/-! Timestamp conversion (`src/actions/utils.cpp`).  The C code scans the
string with `sscanf` patterns `"%d-%d-%d %d:%d:%d.%d"` and
`"%d-%d-%d %d:%d:%d"`, then converts with `mktime` plus a fixed `+28800`
seconds (UTC+8) offset.  The spec fixes the timezone interpretation, so
`mktime` is modelled as the pure proleptic-Gregorian epoch conversion. -/

/-- Whitespace characters accepted by `isspace` (the `%d` conversion and
the literal space in a `scanf` format skip runs of these). -/
def isScanSpace (c : Char) : Bool :=
  c = ' ' || c = '\t' || c = '\n' || c = '\x0b' || c = '\x0c' || c = '\r'

/-- Skip a (possibly empty) run of whitespace. -/
def skipSpaces : List Char → List Char
  | [] => []
  | c :: rest => if isScanSpace c then skipSpaces rest else c :: rest

/-- Accumulate a run of decimal digits. -/
def scanDigits (acc : Int) : List Char → Int × List Char
  | [] => (acc, [])
  | c :: rest =>
    if c.isDigit then scanDigits (acc * 10 + (c.toNat - '0'.toNat : Nat)) rest
    else (acc, c :: rest)

/-- One `%d` conversion: skip whitespace, optional sign, at least one
digit; `none` when the conversion fails. -/
def scanInt (cs : List Char) : Option (Int × List Char) :=
  match skipSpaces cs with
  | [] => none
  | c :: rest =>
    if c = '-' then
      match rest with
      | d :: _ => if d.isDigit then some (Prod.map Int.neg id (scanDigits 0 rest)) else none
      | [] => none
    else if c = '+' then
      match rest with
      | d :: _ => if d.isDigit then some (scanDigits 0 rest) else none
      | [] => none
    else if c.isDigit then some (scanDigits 0 (c :: rest))
    else none

/-- One literal character of a `scanf` format. -/
def scanLit (c : Char) : List Char → Option (List Char)
  | [] => none
  | x :: rest => if x = c then some rest else none

/-- Scan the six mandatory fields `Y-M-D h:m:s` shared by the two
timestamp patterns of `timestamp_str2long_microsec_hack`; the result is
`(fields, remaining input)`. -/
def scanTimestampSix (cs : List Char) :
    Option ((Int × Int × Int × Int × Int × Int) × List Char) := do
  let (y, r1) ← scanInt cs
  let r2 ← scanLit '-' r1
  let (mo, r3) ← scanInt r2
  let r4 ← scanLit '-' r3
  let (d, r5) ← scanInt r4
  let (h, r7) ← scanInt (skipSpaces r5)
  let r8 ← scanLit ':' r7
  let (mi, r9) ← scanInt r8
  let r10 ← scanLit ':' r9
  let (s, r11) ← scanInt r10
  pure ((y, mo, d, h, mi, s), r11)

/-- Full scan corresponding to the `cnt == 7` / `cnt == 6` analysis in
`timestamp_str2long_microsec_hack`: `some (fields, some micro)` when the
dotted pattern matches (7 conversions), `some (fields, none)` when only
the undotted pattern matches (6 conversions), `none` otherwise. -/
def scanTimestamp (str : String) :
    Option ((Int × Int × Int × Int × Int × Int) × Option Int) :=
  match scanTimestampSix str.data with
  | none => none
  | some (fields, rest) =>
    match scanLit '.' rest with
    | none => some (fields, none)
    | some r =>
      match scanInt r with
      | none => some (fields, none)
      | some (micro, _) => some (fields, some micro)

/-- Days from the civil date `(y, m, d)` (month already normalized to
`1..12`) to 1970-01-01, proleptic Gregorian. -/
def daysFromCivil (y m d : Int) : Int :=
  let y' := y - (if m ≤ 2 then 1 else 0)
  let era := y'.fdiv 400
  let yoe := y' - era * 400
  let mp := (m + 9).emod 12
  let doy := (153 * mp + 2).fdiv 5 + d - 1
  let doe := yoe * 365 + yoe.fdiv 4 - yoe.fdiv 100 + doy
  era * 146097 + doe - 719468

/-- Model of `mktime` (with the spec-fixed UTC interpretation) applied to
a `tm` whose month count may fall outside `0..11`: months are folded into
the year exactly as `mktime` normalizes them, and day/hour/minute/second
offsets are added linearly. -/
def mkgmtime (y mo d h mi s : Int) : Int :=
  let months := y * 12 + (mo - 1)
  let ny := months.fdiv 12
  let nm := months.emod 12 + 1
  (daysFromCivil ny nm d) * 86400 + h * 3600 + mi * 60 + s

/-- Convert a timestamp string to microseconds since the epoch under
UTC+8 (`timestamp_str2long_microsec_hack`, `src/actions/utils.cpp`);
returns `-1` when neither `scanf` pattern matches. -/
def timestamp_str2long_microsec_hack (timestamp : String) : Int :=
  match scanTimestamp timestamp with
  | none => -1
  | some ((y, mo, d, h, mi, s), micro) =>
    ((mkgmtime y mo d h mi s + 28800) * 1000000) + micro.getD 0

/-! Action-list engine (`extractor.cpp` and `src/action_list.cpp`).
A `ConditionalAction` pairs a predicate with an action; the extractor
runs the action of the first predicate that matches.  The action is
modelled by the list of `OrderedTask`s it submits via
`insert_ordered_task`; the task payload type `σ` stands for the closure. -/

structure ConditionalAction (σ : Type) where
  predicate : PTree → Job → Bool
  action : PTree → Job → List (OrderedTask σ)

/-- Dispatch loop of `take_actions_on_input` (`extractor.cpp`, lines
229-242) after the XML parse: run the first matching action and return
the tasks it submits; `none` models the `ProgramBug` throw when no
predicate yields true. -/
def take_actions_on_input {σ : Type} :
    List (ConditionalAction σ) → PTree → Job → Option (List (OrderedTask σ))
  | [], _, _ => none
  | ca :: rest, tree, job =>
    if ca.predicate tree job then some (ca.action tree job)
    else take_actions_on_input rest tree job

/-- The always-true no-op tail entry pushed by
`initialize_action_list_with_extractors` (`src/action_list.cpp`, lines
363-372): predicate constantly true, action submitting one empty task
for the job's sequence number. -/
def alwaysTrueTail {σ : Type} (noop : σ) : ConditionalAction σ :=
  ⟨fun _ _ => true, fun _ job => [⟨job.job_num, noop⟩]⟩

/-- `initialize_action_list_with_extractors`: the configured extractor
entries (payload collaborators, passed as a parameter) followed by the
always-true no-op tail. -/
def initialize_action_list_with_extractors {σ : Type}
    (configured : List (ConditionalAction σ)) (noop : σ) : List (ConditionalAction σ) :=
  configured ++ [alwaysTrueTail noop]

/-- Tasks submitted over a whole run: each extractor invocation of
`take_actions_on_input` submits its job's tasks; `none` models a fatal
`ProgramBug` throw anywhere. -/
def pipelineTasks {σ : Type} (lst : List (ConditionalAction σ)) :
    List (PTree × Job) → Option (List (OrderedTask σ))
  | [] => some []
  | (t, j) :: rest =>
    match take_actions_on_input lst t j with
    | none => none
    | some ts => (pipelineTasks lst rest).map (ts ++ ·)

/-! Dedup mode (`src/actions/echo_packet_if_new.cpp`).  The submitted
closure's effect is modelled as a transformer of the executor-owned
state: remembered maximum timestamp, its string form, the output sink,
and the standard-error log. -/

structure DedupState where
  latest : Option Int
  latest_str : String
  output : List String
  errlog : List String
  deriving DecidableEq, Repr

/-- Modelled from the spec: the translation unit defining
`g_latest_seen_timestamp` and `g_latest_seen_ts_string` is not among the
sources (only the `extern` declarations in `global_states.hpp` are), so
the initial remembered maximum follows the spec's dedup rule — "keep only
records whose timestamp is ≥ max previously emitted" — under which a
record arriving before anything was emitted is always kept: the initial
maximum is below every timestamp, modelled as `none`. -/
def dedupInitState : DedupState := ⟨none, "", [], []⟩

/-- The comparison `rawtime >= g_latest_seen_timestamp` with the
spec-modelled bottom initial value. -/
def latestLE (latest : Option Int) (raw : Int) : Bool :=
  match latest with
  | none => true
  | some m => decide (m ≤ raw)

/-- The warning printed by both `echo_packet_if_new` and
`update_reorder_window` when the timestamp matches neither pattern. -/
def timestampWarnMsg (ts : String) : String :=
  "Warning (packet timestamp = " ++ ts ++ "): \n" ++
  "Timestamp does not match the pattern \"%d-%d-%d %d:%d:%d.%d\" " ++
  "or \"%d-%d-%d %d:%d:%d\". " ++ "Dropped."

/-- The dedup action (`echo_packet_if_new`): extract the timestamp
(`none` models the `ptree_bad_path` throw), then submit exactly one task:
a warning task when the timestamp matches neither pattern, otherwise the
conditional echo closure. -/
def echo_packet_if_new (tree : PTree) (job : Job) :
    Option (OrderedTask (DedupState → DedupState)) :=
  (get_packet_time_stamp tree).map (fun timestamp =>
    let rawtime := timestamp_str2long_microsec_hack timestamp
    if rawtime = -1 then
      ⟨job.job_num, fun s => { s with errlog := s.errlog ++ [timestampWarnMsg timestamp] }⟩
    else
      ⟨job.job_num, fun s =>
        if latestLE s.latest rawtime then
          { s with output := s.output ++ [job.xml_string],
                   latest := some rawtime, latest_str := timestamp }
        else
          { s with errlog := s.errlog ++
              ["Dropping packet: " ++ timestamp ++ " < " ++ s.latest_str] }⟩)

/-- Run the dedup closure of one record on the executor state. -/
def dedupApply (s : DedupState) (tree : PTree) (job : Job) : Option DedupState :=
  (echo_packet_if_new tree job).map (fun t => t.func s)

/-- Execute the dedup closures of a record sequence in order (the
in-order executor applies them in sequence-number order, which for the
splitter's dense numbering is input order). -/
def dedupRun (s : DedupState) : List (PTree × Job) → Option DedupState
  | [] => some s
  | (t, j) :: rest =>
    match dedupApply s t j with
    | none => none
    | some s' => dedupRun s' rest

/-- Specification-side list of the timestamps of the records a dedup run
emits, starting from the given remembered maximum. -/
def emittedTimestampsAux (latest : Option Int) : List (PTree × Job) → List Int
  | [] => []
  | (tree, _) :: rest =>
    match get_packet_time_stamp tree with
    | none => []
    | some ts =>
      let raw := timestamp_str2long_microsec_hack ts
      if raw = -1 then emittedTimestampsAux latest rest
      else if latestLE latest raw then raw :: emittedTimestampsAux (some raw) rest
      else emittedTimestampsAux latest rest

/-- Timestamps of the records emitted by a dedup run from the initial
state. -/
def emittedTimestamps (recs : List (PTree × Job)) : List Int :=
  emittedTimestampsAux none recs

/-! Reorder mode (`src/sorter.cpp` and
`src/actions/update_reorder_window.cpp`).  The `std::multimap` window is
modelled as a list sorted by ascending key, equal keys in insertion
order (`emplace_hint(window.end(), …)` inserts at the upper bound). -/

structure ReorderWindow where
  ooo_tolerance : Int
  window : List (Int × String)
  deriving DecidableEq, Repr

/-- Multimap insertion at the upper bound of the key. -/
def windowInsert (t : Int) (s : String) : List (Int × String) → List (Int × String)
  | [] => [(t, s)]
  | (k, v) :: rest => if t < k then (t, s) :: (k, v) :: rest else (k, v) :: windowInsert t s rest

/-- The eviction loop of `ReorderWindow::update`: send the packets from
the front of the window to the output while the largest timestamp
exceeds theirs by more than the tolerance. -/
def evictOlder (largest tol : Int) : List (Int × String) → List String × List (Int × String)
  | [] => ([], [])
  | (k, v) :: rest =>
    if largest - k > tol then
      let r := evictOlder largest tol rest
      (v :: r.1, r.2)
    else ([], (k, v) :: rest)

/-- `ReorderWindow::update` (`src/sorter.cpp`, lines 36-50): insert the
packet, then evict older packets beyond the window; returns the evicted
output lines and the new window. -/
def ReorderWindow.update (w : ReorderWindow) (timestamp : Int) (str : String) :
    List String × ReorderWindow :=
  let win := windowInsert timestamp str w.window
  let largest := ((win.getLast?).map (·.1)).getD timestamp
  let r := evictOlder largest w.ooo_tolerance win
  (r.1, ⟨w.ooo_tolerance, r.2⟩)

/-- `ReorderWindow::flush`: send all remaining packets to the output in
sequence (called by `cleanup()` in `main.cpp` at the end of the run). -/
def ReorderWindow.flush (w : ReorderWindow) : List String := w.window.map (·.2)

/-- Apply `ReorderWindow::update` for each arriving packet in order,
collecting the output. -/
def reorderUpdates (w : ReorderWindow) : List (Int × String) → List String × ReorderWindow
  | [] => ([], w)
  | (t, s) :: rest =>
    let r := w.update t s
    let r2 := reorderUpdates r.2 rest
    (r.1 ++ r2.1, r2.2)

/-- Output of a complete reorder-mode run over the given
(timestamp, record text) packets: the updates' evictions followed by the
final flush. -/
def reorderRunOutput (tol : Int) (packets : List (Int × String)) : List String :=
  let r := reorderUpdates ⟨tol, []⟩ packets
  r.1 ++ r.2.flush

/-- Executor-owned state of reorder mode. -/
structure ReorderState where
  rw : ReorderWindow
  output : List String
  errlog : List String
  deriving DecidableEq, Repr

/-- The reorder action (`update_reorder_window`): extract the timestamp,
submit exactly one task — the warning task on pattern mismatch,
otherwise a closure updating the window. -/
def update_reorder_window (tree : PTree) (job : Job) :
    Option (OrderedTask (ReorderState → ReorderState)) :=
  (get_packet_time_stamp tree).map (fun timestamp =>
    let rawtime := timestamp_str2long_microsec_hack timestamp
    if rawtime = -1 then
      ⟨job.job_num, fun s => { s with errlog := s.errlog ++ [timestampWarnMsg timestamp] }⟩
    else
      ⟨job.job_num, fun s =>
        let r := s.rw.update rawtime job.xml_string
        { s with rw := r.2, output := s.output ++ r.1 }⟩)

/-! Lexical splitter (`src/splitter.cpp`).  The byte streams of the
input files are lists of characters; the scalar DFA is embedded
state-by-state. -/

inductive MachineState
  | AngleClosed | AngleOpen | CreatingField | CreatingSubtree | ClosingSubtree
  deriving DecidableEq, Repr

/-- Transition of the `AngleClosed` state (`machine_action_angle_closed`). -/
def machine_action_angle_closed (depth : Int) (c : Char) : MachineState × Int :=
  if c = '<' then (.AngleOpen, depth) else (.AngleClosed, depth)

/-- Transition of the `AngleOpen` state (`machine_action_angle_open`). -/
def machine_action_angle_open (depth : Int) (c : Char) : MachineState × Int :=
  if c = '/' then (.ClosingSubtree, depth) else (.CreatingSubtree, depth)

/-- Transition of the `CreatingField` state
(`machine_action_creating_field`): on `>` the tag closes with no depth
change, otherwise the guess about `/>` was wrong. -/
def machine_action_creating_field (depth : Int) (c : Char) : MachineState × Int :=
  if c = '>' then (.AngleClosed, depth) else (.CreatingSubtree, depth)

/-- Transition of the `CreatingSubtree` state
(`machine_action_creating_subtree`). -/
def machine_action_creating_subtree (depth : Int) (c : Char) : MachineState × Int :=
  if c = '>' then (.AngleClosed, depth + 1)
  else if c = '/' then (.CreatingField, depth)
  else (.CreatingSubtree, depth)

/-- Transition of the `ClosingSubtree` state
(`machine_action_closing_subtree`). -/
def machine_action_closing_subtree (depth : Int) (c : Char) : MachineState × Int :=
  if c = '>' then (.AngleClosed, depth - 1) else (.ClosingSubtree, depth)

/-- The dispatch switch of the DFA inside `next_ptree_string`. -/
def machineStep : MachineState → Int → Char → MachineState × Int
  | .AngleClosed, d, c => machine_action_angle_closed d c
  | .AngleOpen, d, c => machine_action_angle_open d c
  | .CreatingField, d, c => machine_action_creating_field d c
  | .CreatingSubtree, d, c => machine_action_creating_subtree d c
  | .ClosingSubtree, d, c => machine_action_closing_subtree d c

/-- Line-number update on reading one character
(`if (c == '\n') ++g_current_line_number`). -/
def lineBump (line : Nat) (c : Char) : Nat := if c = '\n' then line + 1 else line

/-- The skip loop of `next_ptree_string`: discard characters (counting
newlines) until the first `<`; returns the stream after the `<` (or
`none` at end of file) and the updated line number. -/
def skipUntilLt : List Char → Nat → Option (List Char) × Nat
  | [], line => (none, line)
  | c :: rest, line =>
    if c = '<' then (some rest, line) else skipUntilLt rest (lineBump line c)

/-- The DFA loop of `next_ptree_string`: accumulate each character, step
the machine, stop when depth 0 is reached in `AngleClosed` (complete
record, flag `true`) or at end of file (truncated record, flag `false`).
Returns (record, remaining stream, line number, completed flag). -/
def fsmLoop : List Char → Nat → MachineState → Int → Char → List Char →
    List Char × List Char × Nat × Bool
  | cs, line, state, depth, c, acc =>
    if (machineStep state depth c).2 = 0 ∧
        (machineStep state depth c).1 = MachineState.AngleClosed then
      (acc ++ [c], cs, line, true)
    else
      match cs with
      | [] => (acc ++ [c], [], line, false)
      | c' :: rest =>
        fsmLoop rest (lineBump line c') (machineStep state depth c).1
          (machineStep state depth c).2 c' (acc ++ [c])

/-- State of the splitter between records: the remaining input files
(current first, each with its name), `g_current_line_number` and
`g_start_line_number`. -/
structure SplitterState where
  files : List (String × List Char)
  cur_line : Nat
  start_line : Nat
  deriving DecidableEq, Repr

/-- `next_ptree_string`: skip to the first `<`, run the DFA until the
matching end of the top-level element, or move to the next input file on
end of file.  Returns the record (empty at end of all inputs), the new
splitter state, and whether the DFA completed (rather than hitting end
of file mid-record). -/
def next_ptree_string : List (String × List Char) → Nat → Nat →
    List Char × SplitterState × Bool
  | [], line, sl => ([], ⟨[], line, sl⟩, true)
  | (nm, f) :: rest, line, sl =>
    match skipUntilLt f line with
    | (some after, ln) =>
      let r := fsmLoop after ln MachineState.AngleClosed 0 '<' []
      (r.1, ⟨(nm, r.2.1) :: rest, r.2.2.1, ln⟩, r.2.2.2)
    | (none, ln) =>
      match rest with
      | [] => ([], ⟨[], ln, sl⟩, true)
      | _ => next_ptree_string rest 1 sl

/-- `next_ptree_string` on a splitter state. -/
def next_ptree_string_st (st : SplitterState) : List Char × SplitterState × Bool :=
  next_ptree_string st.files st.cur_line st.start_line

/-- Total number of unread characters plus files: an upper bound on the
number of records the splitter can still emit. -/
def splitterSize (st : SplitterState) : Nat :=
  (st.files.map (fun f => f.2.length)).sum + st.files.length

/-- The producing loop of `smain_splitter`: emit a `Job` per record with
consecutive `job_num` starting from `n`, until `next_ptree_string`
returns an empty string.  `fuel` bounds the recursion; `smain_splitter`
supplies enough for the whole input. -/
def smain_splitter_go : Nat → SplitterState → Nat → List Job
  | 0, _, _ => []
  | fuel + 1, st, n =>
    let r := next_ptree_string_st st
    if r.1 = [] then []
    else
      { job_num := n, xml_string := String.mk r.1,
        file_name := ((r.2.1.files.head?).map (·.1)).getD "",
        start_line_number := r.2.1.start_line,
        end_line_number := r.2.1.cur_line } :: smain_splitter_go fuel r.2.1 (n + 1)

/-- The splitter thread `smain_splitter` in the non-cancelled run:
the sequence of Jobs handed to `produce_job_to_extractor`. -/
def smain_splitter (st : SplitterState) : List Job :=
  smain_splitter_go (splitterSize st + 1) st 0

/-- A splitter reading one in-memory file. -/
def singleFileState (nm : String) (contents : String) : SplitterState :=
  ⟨[(nm, contents.data)], 1, 0⟩

/-- A concrete parsed record of the input format: a `dm_log_packet` root
with one `pair key="timestamp"` child carrying the given timestamp
string. -/
def sampleTimestampTree (ts : String) : PTree :=
  ⟨"", [("dm_log_packet",
    ⟨"", [("pair",
      ⟨ts, [("<xmlattr>", ⟨"", [("key", ⟨"timestamp", []⟩)]⟩)]⟩)]⟩)]⟩

/-- A concrete Job for tests. -/
def sampleJob (n : Nat) (txt : String) : Job := ⟨n, txt, "f", 1, 1⟩

/-! Cancellation entry points.  Each `kill_*` function stores into the
component's early-terminating flag and performs some number of condition
variable notify calls; both effects are recorded. -/

structure KillSignal where
  terminating_flag : Bool
  cv_notifications : Nat
  deriving DecidableEq, Repr

/-- `kill_splitter` (`src/splitter.cpp`, lines 223-225): executes
`g_early_terminating.store(false)` — it stores `false` — and contains no
notify call. -/
def kill_splitter (_prev : Bool) : KillSignal := ⟨false, 0⟩

/-- `kill_in_order_executor` (`in_order_executor.cpp`, lines 149-153):
stores `true` and notifies the executor's condition variable once. -/
def kill_in_order_executor (_prev : Bool) : KillSignal := ⟨true, 1⟩

/-- `kill_extractor` (`extractor.cpp`, lines 82-87): stores `true` and
notifies both work-queue condition variables. -/
def kill_extractor (_prev : Bool) : KillSignal := ⟨true, 2⟩

/-- The splitter main loop guarded by its early-terminating flag
(`while (!g_early_terminating.load())`): with the flag set it stops
before the next record, otherwise it runs to completion. -/
def smain_splitter_guarded (early_terminating : Bool) (st : SplitterState) : List Job :=
  if early_terminating then [] else smain_splitter st

/-! Work-queue back-pressure (`extractor.cpp`). -/

/-- `FULL_WATRE_MARK` from `parameters.hpp` (sic): 128. -/
def FULL_WATRE_MARK : Nat := 128

/-- Modelled from the spec: `produce_job_to_extractor` in `extractor.cpp`
reads `HIGH_WATRE_MARK`, whose defining header revision is not among the
sources; `parameters.hpp` carries the corresponding full-water-mark
constant 128 and the spec requires HIGH > LOW > 0, which 128 > 8 > 0
satisfies. -/
def HIGH_WATRE_MARK : Nat := FULL_WATRE_MARK

/-- `LOW_WATER_MARK` from `parameters.hpp`: 8. -/
def LOW_WATER_MARK : Nat := 8

/-- The work-queue state visible to the producer: queue size and the two
flags read by the wait guard. -/
structure QueueState where
  size : Nat
  splitter_finished : Bool
  early_terminating : Bool
  deriving DecidableEq, Repr

/-- The guard of the producer's condition-variable wait in
`produce_job_to_extractor` (lines 103-109): proceed when the splitter is
finished, the run is cancelled, or the queue is below `N·HIGH`. -/
def produce_wait_predicate (N : Nat) (st : QueueState) : Bool :=
  st.splitter_finished || st.early_terminating || decide (st.size < N * HIGH_WATRE_MARK)

/-- Outcome of one call to `produce_job_to_extractor`. -/
inductive ProduceResult
  | blocked
  | terminated
  | bug
  | enqueued (newSize : Nat)
  deriving DecidableEq, Repr

/-- `produce_job_to_extractor` (lines 99-131): wait while the guard is
false (`blocked`), then return without enqueuing on cancellation, throw
`ProgramBug` if the splitter was already marked finished, otherwise
emplace the job. -/
def produce_job_to_extractor (N : Nat) (st : QueueState) : ProduceResult :=
  if !(produce_wait_predicate N st) then .blocked
  else if st.early_terminating then .terminated
  else if st.splitter_finished then .bug
  else .enqueued (st.size + 1)

/-- The consumer-side notification condition in `smain_extractor`
(line 205): before popping, wake the producer iff the queue size is at
most `N·LOW`. -/
def consumer_notifies_nonfull (N : Nat) (size : Nat) : Bool :=
  decide (size ≤ N * LOW_WATER_MARK)

/-! Process exit path (`main.cpp`, lines 361-395). -/

/-- The kinds of thrown object distinguishable by main's catch ladder.
The concrete exception classes (`exceptions.hpp`, boost) are each listed
before their bases, so every class reaches its own handler;
`otherStdException` is any other `std::exception`, `nonStdObject` any
thrown object not derived from the listed types (reaching `catch (...)`). -/
inductive CaughtException
  | unexpectedCase | argumentError | programOptionsError | ptreeBadPath
  | ptreeBadData | ptreeError | programBug | otherStdException | nonStdObject
  deriving DecidableEq, Repr

/-- Return value of `main`: each named handler reports and returns 1;
the `catch (...)` handler prints its report but falls through to the
final `return 0`, as does the successful path. -/
def mainReturnValue : Option CaughtException → Int
  | none => 0
  | some .unexpectedCase => 1
  | some .argumentError => 1
  | some .programOptionsError => 1
  | some .ptreeBadPath => 1
  | some .ptreeBadData => 1
  | some .ptreeError => 1
  | some .programBug => 1
  | some .otherStdException => 1
  | some .nonStdObject => 0

/-- Whether main writes an exception report to standard error: every
handler does (`show_exception_message` or the unknown-exception line). -/
def mainReportsException : Option CaughtException → Bool
  | none => false
  | some _ => true

theorem heapPush_map {α : Type} (f : Nat → α) (j : Nat) (J : List Nat) :
    heapPush (mkTask f j) (J.map (mkTask f)) = (seqInsert j J).map (mkTask f) := by
  induction J with
  | nil => rfl
  | cons k rest ih =>
    simp only [List.map, heapPush, seqInsert, mkTask]
    by_cases h : j ≤ k
    · simp [h, mkTask]
    · simp [h, ← ih, mkTask]

theorem seqInsert_perm (j : Nat) (J : List Nat) : (seqInsert j J).Perm (j :: J) := by
  induction J with
  | nil => rfl
  | cons k rest ih =>
    simp only [seqInsert]
    by_cases h : j ≤ k
    · simp [h]
    · simp only [h, if_false]
      exact ((ih.cons k).trans (List.Perm.swap j k rest))

theorem seqInsert_sorted {j : Nat} {J : List Nat} (hs : J.Sorted (· < ·))
    (hnd : j ∉ J) : (seqInsert j J).Sorted (· < ·) := by
  induction J with
  | nil => simp [seqInsert]
  | cons k rest ih =>
    rw [List.sorted_cons] at hs
    simp only [seqInsert]
    by_cases h : j ≤ k
    · have hjk : j < k := lt_of_le_of_ne h (by intro he; exact hnd (he ▸ List.mem_cons_self k rest))
      rw [if_pos h, List.sorted_cons]
      constructor
      · intro b hb
        rcases List.mem_cons.mp hb with rfl | hb
        · exact hjk
        · exact hjk.trans (hs.1 b hb)
      · exact List.sorted_cons.mpr hs
    · rw [if_neg h, List.sorted_cons]
      refine ⟨?_, ih hs.2 (fun hm => hnd (List.mem_cons_of_mem k hm))⟩
      intro b hb
      rcases List.mem_cons.mp ((seqInsert_perm j rest).mem_iff.mp hb) with rfl | hb
      · exact Nat.lt_of_not_le h
      · exact hs.1 b hb

theorem mem_seqInsert {x j : Nat} {J : List Nat} :
    x ∈ seqInsert j J ↔ x = j ∨ x ∈ J := by
  rw [(seqInsert_perm j J).mem_iff, List.mem_cons]

/-- Specification of the drain loop on a strictly sorted heap whose
elements are all `≥ next`: it removes exactly the maximal contiguous run
`next, next+1, …, next'-1` from the front and leaves a heap whose elements
all exceed the new counter `next'`. -/
theorem drainTasks_spec {α : Type} (f : Nat → α) :
    ∀ (J : List Nat) (next : Nat), J.Sorted (· < ·) → (∀ x ∈ J, next ≤ x) →
    ∃ next' R, next ≤ next' ∧ J = List.Ico next next' ++ R ∧
      drainTasks (J.map (mkTask f)) next =
        ((List.Ico next next').map (mkTask f), R.map (mkTask f), next') ∧
      (∀ x ∈ R, next' < x) ∧ R.Sorted (· < ·)
  | [], next, _, _ => by
    refine ⟨next, [], le_refl next, ?_, ?_, ?_, ?_⟩ <;>
      simp [drainTasks, List.Ico.self_empty]
  | k :: rest, next, hs, hge => by
    rw [List.sorted_cons] at hs
    by_cases hk : k = next
    · subst hk
      have hrest_ge : ∀ x ∈ rest, k + 1 ≤ x := fun x hx => hs.1 x hx
      obtain ⟨next', R, hle, heq, hdrain, hR, hRs⟩ :=
        drainTasks_spec f rest (k + 1) hs.2 hrest_ge
      refine ⟨next', R, Nat.le_of_succ_le hle, ?_, ?_, hR, hRs⟩
      · rw [List.Ico.eq_cons (Nat.lt_of_succ_le hle), List.cons_append, ← heq]
      · simp only [List.map, drainTasks, mkTask, if_pos rfl]
        rw [List.Ico.eq_cons (Nat.lt_of_succ_le hle)]
        simp [hdrain, mkTask]
    · have hkgt : next < k := lt_of_le_of_ne (hge k (List.mem_cons_self k rest)) (Ne.symm hk)
      refine ⟨next, k :: rest, le_refl next, by simp [List.Ico.self_empty], ?_, ?_, ?_⟩
      · simp only [List.map, drainTasks, mkTask]
        rw [if_neg hk]
        simp [List.Ico.self_empty, mkTask]
      · intro x hx
        rcases List.mem_cons.mp hx with rfl | hx
        · exact hkgt
        · exact hkgt.trans (hs.1 x hx)
      · exact List.sorted_cons.mpr hs

/-- Core executor theorem, generalized over intermediate states: starting
from a heap holding the (sorted, distinct) pending sequence numbers `J`
(all beyond the counter `next`), if the pending and arriving numbers
together are exactly `next, …, K-1` in some order, then the executor runs
all of them in ascending contiguous order and finishes with counter `K`
and an empty heap. -/
theorem execRun_spec {α : Type} (f : Nat → α) (K : Nat) :
    ∀ (arr J : List Nat) (next : Nat), J.Sorted (· < ·) → (∀ j ∈ J, next < j) →
    next ≤ K → (J ++ arr).Perm (List.Ico next K) →
    execRun (arr.map (mkTask f)) (J.map (mkTask f)) next =
      ((List.Ico next K).map (mkTask f), [], K)
  | [], J, next, hs, hgt, hle, hperm => by
    rw [List.append_nil] at hperm
    have hK : K ≤ next := by
      by_contra h
      have hmem : next ∈ List.Ico next K :=
        List.Ico.mem.mpr ⟨le_refl next, Nat.lt_of_not_le h⟩
      have := hperm.mem_iff.mpr hmem
      exact absurd rfl (Nat.ne_of_lt (hgt next this))
    have hnK : next = K := le_antisymm hle hK
    subst hnK
    have : J = [] := List.Perm.eq_nil (by simpa [List.Ico.self_empty] using hperm)
    subst this
    simp [execRun, List.Ico.self_empty]
  | j :: arr, J, next, hs, hgt, hle, hperm => by
    have hnodup : (J ++ j :: arr).Nodup := hperm.nodup_iff.mpr (List.Ico.nodup next K)
    have hjJ : j ∉ J := by
      intro hm
      have := List.nodup_append.mp hnodup
      exact this.2.2 hm (List.mem_cons_self j arr)
    have hmem_ico : ∀ x ∈ J ++ j :: arr, x ∈ List.Ico next K := fun x hx =>
      hperm.mem_iff.mp hx
    have hj_ico : j ∈ List.Ico next K :=
      hmem_ico j (List.mem_append_right J (List.mem_cons_self j arr))
    have hj_bounds := List.Ico.mem.mp hj_ico
    -- the heap after the push holds `seqInsert j J`
    have hJ'_sorted : (seqInsert j J).Sorted (· < ·) := seqInsert_sorted hs hjJ
    have hJ'_ge : ∀ x ∈ seqInsert j J, next ≤ x := by
      intro x hx
      rcases mem_seqInsert.mp hx with rfl | hx
      · exact hj_bounds.1
      · exact le_of_lt (hgt x hx)
    obtain ⟨next', R, hle', heq, hdrain, hRgt, hRs⟩ :=
      drainTasks_spec f (seqInsert j J) next hJ'_sorted hJ'_ge
    have hJ'_lt : ∀ x ∈ seqInsert j J, x < K := by
      intro x hx
      rcases mem_seqInsert.mp hx with rfl | hx
      · exact hj_bounds.2
      · exact (List.Ico.mem.mp (hmem_ico x (List.mem_append_left _ hx))).2
    have hnext'K : next' ≤ K := by
      rcases Nat.eq_or_lt_of_le hle' with heqn | hltn
      · exact heqn ▸ hle
      · have hmem : next' - 1 ∈ List.Ico next next' := List.Ico.mem.mpr (by omega)
        have h2 : next' - 1 ∈ seqInsert j J := heq ▸ List.mem_append_left _ hmem
        have h3 := hJ'_lt _ h2
        omega
    -- the remaining heap indices and the remaining arrivals cover Ico next' K
    have hsplit : List.Ico next next' ++ List.Ico next' K = List.Ico next K :=
      List.Ico.append_consecutive hle' hnext'K
    have hperm2 : (R ++ arr).Perm (List.Ico next' K) := by
      have h1 : (List.Ico next next' ++ (R ++ arr)).Perm
          (List.Ico next next' ++ List.Ico next' K) := by
        rw [hsplit, ← List.append_assoc, ← heq]
        exact ((seqInsert_perm j J).append_right arr).trans
          (List.perm_middle.symm.trans hperm)
      exact (List.perm_append_left_iff _).mp h1
    have hstep := execRun_spec f K arr R next' hRs hRgt hnext'K hperm2
    simp only [List.map, execRun]
    rw [heapPush_map, hdrain]
    simp only []
    rw [hstep]
    simp [← List.map_append, hsplit]

/-- Shared executor result: for any arrival permutation of the canonical
task list, the executed sequence is the canonical list itself, the heap
drains, and the counter ends at `K`. -/
theorem executor_perm_canonical {α : Type} (K : Nat) (f : Nat → α)
    (L : List (OrderedTask α)) (h : L.Perm (canonicalTasks K f)) :
    smain_in_order_executor L = (canonicalTasks K f, [], K) := by
  have hmem : ∀ t ∈ L, t = mkTask f t.seq_num := by
    intro t ht
    have hmem2 := h.mem_iff.mp ht
    simp only [canonicalTasks, List.mem_map, List.mem_range] at hmem2
    obtain ⟨i, _, hti⟩ := hmem2
    rw [← hti]
    rfl
  have hL : L = (L.map OrderedTask.seq_num).map (mkTask f) := by
    rw [List.map_map]
    conv_lhs => rw [← List.map_id L]
    exact List.map_congr_left hmem
  have hperm : (L.map OrderedTask.seq_num).Perm (List.range K) := by
    have h2 := h.map OrderedTask.seq_num
    have h3 : (canonicalTasks K f).map OrderedTask.seq_num = List.range K := by
      have hcomp : OrderedTask.seq_num ∘ mkTask f = id := funext fun i => rfl
      simp [canonicalTasks, List.map_map, hcomp]
    rwa [h3] at h2
  have h0 : List.Ico 0 K = List.range K := List.Ico.zero_bot K
  have hspec := execRun_spec f K (L.map OrderedTask.seq_num) [] 0
    (by simp) (by simp) (Nat.zero_le K) (by simpa [h0] using hperm)
  rw [smain_in_order_executor]
  rw [hL]
  simpa [h0, canonicalTasks] using hspec

/-- C1: in every successfully completing run, the in-order executor runs
the submitted closures in strictly ascending, contiguous sequence-number
order starting at 0 — the executed sequence is exactly the canonical
task list ordered by `seq_num` — no matter in which order the extractor
threads delivered them.  Since the result does not depend on the arrival
permutation, the visible output bytes are identical for every worker
count. -/
theorem inOrderExecutor_runs_in_ascending_contiguous_order {α : Type}
    (K : Nat) (f : Nat → α) (L : List (OrderedTask α))
    (h : L.Perm (canonicalTasks K f)) :
    smain_in_order_executor L = (canonicalTasks K f, [], K) :=
  executor_perm_canonical K f L h

/-- Witness for C1 at a concrete out-of-order arrival sequence. -/
theorem inOrderExecutor_runs_in_ascending_contiguous_order_witness :
    ([⟨2, 20⟩, ⟨0, 0⟩, ⟨1, 10⟩] : List (OrderedTask Nat)).Perm
      (canonicalTasks 3 (fun i => 10 * i)) ∧
    smain_in_order_executor ([⟨2, 20⟩, ⟨0, 0⟩, ⟨1, 10⟩] : List (OrderedTask Nat)) =
      (canonicalTasks 3 (fun i => 10 * i), [], 3) :=
  ⟨by decide,
   inOrderExecutor_runs_in_ascending_contiguous_order 3 (fun i => 10 * i) _ (by decide)⟩

/-- With the always-true tail appended, the dispatch of
`take_actions_on_input` always succeeds and, when every configured
action submits exactly one task carrying its job's number, yields
exactly one such task. -/
theorem take_actions_with_tail {σ : Type} (configured : List (ConditionalAction σ))
    (noop : σ)
    (hone : ∀ ca ∈ configured, ∀ t j, ∃ p, ca.action t j = [⟨j.job_num, p⟩])
    (tree : PTree) (job : Job) :
    ∃ p, take_actions_on_input (initialize_action_list_with_extractors configured noop)
        tree job = some [⟨job.job_num, p⟩] := by
  induction configured with
  | nil => exact ⟨noop, rfl⟩
  | cons ca rest ih =>
    simp only [initialize_action_list_with_extractors, List.cons_append,
      take_actions_on_input]
    by_cases hp : ca.predicate tree job
    · obtain ⟨p, hp2⟩ := hone ca (List.mem_cons_self ca rest) tree job
      rw [if_pos hp, hp2]
      exact ⟨p, rfl⟩
    · rw [if_neg hp]
      exact ih (fun ca' h' t j => hone ca' (List.mem_cons_of_mem ca h') t j)

/-- When dispatch submits exactly one task per job, a run over any record
list submits one task per record, carrying the records' job numbers in
order. -/
theorem pipelineTasks_one_per_job {σ : Type} (lst : List (ConditionalAction σ))
    (h : ∀ t j, ∃ p, take_actions_on_input lst t j = some [⟨j.job_num, p⟩]) :
    ∀ records : List (PTree × Job), ∃ tasks,
      pipelineTasks lst records = some tasks ∧
      tasks.map OrderedTask.seq_num = records.map (fun r => r.2.job_num)
  | [] => ⟨[], rfl, rfl⟩
  | (t, j) :: rest => by
    obtain ⟨p, hp⟩ := h t j
    obtain ⟨tasks, htasks, hmap⟩ := pipelineTasks_one_per_job lst h rest
    refine ⟨⟨j.job_num, p⟩ :: tasks, ?_, ?_⟩
    · simp [pipelineTasks, hp, htasks]
    · simp [hmap]

/-- A task list whose sequence numbers are exactly `0, …, K-1` in order
is the canonical list of its own payloads. -/
theorem eq_canonical_of_map_seq {α : Type} (tasks : List (OrderedTask α)) (K : Nat)
    (d : α) (h : tasks.map OrderedTask.seq_num = List.range K) :
    tasks = canonicalTasks K (fun i => (tasks.getD i ⟨i, d⟩).func) := by
  have hlen : tasks.length = K := by
    have := congrArg List.length h
    simpa using this
  have hlen2 : (canonicalTasks K (fun i => (tasks.getD i ⟨i, d⟩).func)).length = K := by
    simp [canonicalTasks]
  apply List.ext_getElem (by rw [hlen, hlen2])
  intro i h1 h2
  have hiK : i < K := hlen ▸ h1
  have h3 := congrArg (fun l => l[i]?) h
  simp only [List.getElem?_map, List.getElem?_range hiK,
    List.getElem?_eq_getElem h1, Option.map_some'] at h3
  have hseq : tasks[i].seq_num = i := by
    simpa using h3
  have hcan : (canonicalTasks K (fun i => (tasks.getD i ⟨i, d⟩).func))[i] =
      ⟨i, (tasks.getD i ⟨i, d⟩).func⟩ := by
    simp [canonicalTasks, mkTask]
  rw [hcan]
  have hd : tasks.getD i ⟨i, d⟩ = tasks[i] := List.getD_eq_getElem _ _ h1
  rw [hd]
  cases htask : tasks[i] with
  | mk sq fn =>
    have : sq = i := by rw [htask] at hseq; exact hseq
    subst this
    rfl

/-- C2: for an input of `K` records (Jobs numbered `0..K-1`), the action
pipeline built by `initialize_action_list_with_extractors` — configured
entries each submitting exactly one task per job, plus the always-true
no-op tail catching records no configured predicate matches — submits
exactly `K` ordered tasks, one per job, the dispatch never fails, and
the executor executes exactly those `K` closures and finishes with its
next-task counter equal to `K`. -/
theorem pipeline_submits_and_executes_exactly_K {σ : Type}
    (configured : List (ConditionalAction σ)) (noop : σ)
    (hone : ∀ ca ∈ configured, ∀ t j, ∃ p, ca.action t j = [⟨j.job_num, p⟩])
    (records : List (PTree × Job)) (K : Nat) (_hK : records.length = K)
    (hseq : records.map (fun r => r.2.job_num) = List.range K) :
    ∃ tasks, pipelineTasks (initialize_action_list_with_extractors configured noop)
        records = some tasks ∧
      tasks.length = K ∧ tasks.map OrderedTask.seq_num = List.range K ∧
      smain_in_order_executor tasks = (tasks, [], K) := by
  obtain ⟨tasks, htasks, hmap⟩ :=
    pipelineTasks_one_per_job _ (take_actions_with_tail configured noop hone) records
  rw [hseq] at hmap
  have hlen : tasks.length = K := by
    have := congrArg List.length hmap
    simpa using this
  refine ⟨tasks, htasks, hlen, hmap, ?_⟩
  have hcanon := eq_canonical_of_map_seq tasks K noop hmap
  have := executor_perm_canonical K (fun i => (tasks.getD i ⟨i, noop⟩).func)
    tasks (by rw [← hcanon])
  rw [this, ← hcanon]

/-- Witness for C2: two records, no configured extractor, the tail
catches both. -/
theorem pipeline_submits_and_executes_exactly_K_witness :
    (∀ ca ∈ ([] : List (ConditionalAction Nat)), ∀ t j, ∃ p,
        ca.action t j = [⟨j.job_num, p⟩]) ∧
    ∃ tasks, pipelineTasks (initialize_action_list_with_extractors [] 0)
        [(⟨"", []⟩, ⟨0, "<a/>", "f", 1, 1⟩), (⟨"", []⟩, ⟨1, "<b/>", "f", 2, 2⟩)] = some tasks ∧
      tasks.length = 2 ∧ tasks.map OrderedTask.seq_num = List.range 2 ∧
      smain_in_order_executor tasks = (tasks, [], 2) :=
  ⟨fun ca h => absurd h (List.not_mem_nil ca),
   pipeline_submits_and_executes_exactly_K [] 0
     (fun ca h => absurd h (List.not_mem_nil ca))
     [(⟨"", []⟩, ⟨0, "<a/>", "f", 1, 1⟩), (⟨"", []⟩, ⟨1, "<b/>", "f", 2, 2⟩)] 2
     rfl (by rfl)⟩

/-- When the DFA loop ends because of end of file (completed flag
`false`), the current input stream is exhausted. -/
theorem fsmLoop_incomplete : ∀ (cs : List Char) (line : Nat) (state : MachineState)
    (depth : Int) (c : Char) (acc : List Char),
    (fsmLoop cs line state depth c acc).2.2.2 = false →
    (fsmLoop cs line state depth c acc).2.1 = []
  | [], line, state, depth, c, acc => by
    intro hf
    by_cases hcond : (machineStep state depth c).2 = 0 ∧
        (machineStep state depth c).1 = MachineState.AngleClosed
    · simp [fsmLoop, hcond] at hf
    · simp [fsmLoop, hcond]
  | c' :: rest, line, state, depth, c, acc => by
    intro hf
    by_cases hcond : (machineStep state depth c).2 = 0 ∧
        (machineStep state depth c).1 = MachineState.AngleClosed
    · simp [fsmLoop, hcond] at hf
    · simp only [fsmLoop, if_neg hcond] at hf ⊢
      exact fsmLoop_incomplete rest _ _ _ _ _ hf

/-- C3 (counterexample to the claim as stated): on the truncated input
`<a` — end of file is reached with the DFA still inside a record — the
splitter does NOT discard the partial record: it emits a Job carrying the
partial text `<a`. -/
theorem splitter_truncated_input_emits_job :
    smain_splitter (singleFileState "f" "<a") =
      [{ job_num := 0, xml_string := "<a", file_name := "f",
         start_line_number := 1, end_line_number := 1 }] ∧
    smain_splitter (singleFileState "f" "<a") ≠ [] := by
  constructor
  · rfl
  · intro hcontra
    simp [smain_splitter, singleFileState, splitterSize] at hcontra
    revert hcontra
    decide

/-- C3 (amended): if end of the last input file is reached while the
splitter is inside a record, the partial accumulated text is NOT
discarded: `next_ptree_string` returns it, `smain_splitter` emits a Job
carrying it (format validation is deferred to the extractor), and the
splitter loop then terminates. -/
theorem splitter_truncated_input_behavior (nm : String) (f : List Char)
    (line sl : Nat) (rec : List Char) (st' : SplitterState)
    (h : next_ptree_string [(nm, f)] line sl = (rec, st', false))
    (hne : rec ≠ []) :
    smain_splitter ⟨[(nm, f)], line, sl⟩ =
      [{ job_num := 0, xml_string := String.mk rec, file_name := nm,
         start_line_number := st'.start_line, end_line_number := st'.cur_line }] := by
  rcases hsk : skipUntilLt f line with ⟨o, ln⟩
  cases o with
  | none =>
    rw [next_ptree_string, hsk] at h
    simp at h
  | some after =>
    have hnext : next_ptree_string_st ⟨[(nm, f)], line, sl⟩ = (rec, st', false) := h
    rw [next_ptree_string, hsk] at h
    rw [Prod.mk.injEq, Prod.mk.injEq] at h
    obtain ⟨hrec, hst, hflag⟩ := h
    have hrest : (fsmLoop after ln MachineState.AngleClosed 0 '<' []).2.1 = [] :=
      fsmLoop_incomplete _ _ _ _ _ _ hflag
    rw [smain_splitter]
    have hsize : splitterSize ⟨[(nm, f)], line, sl⟩ = f.length + 1 := by
      simp [splitterSize]
    rw [hsize]
    rw [smain_splitter_go]
    rw [hnext]
    simp only [if_neg hne]
    rw [← hst]
    rw [hrest]
    have hnext2 : next_ptree_string_st ⟨[(nm, [])],
        (fsmLoop after ln MachineState.AngleClosed 0 '<' []).2.2.1, ln⟩ =
        ([], ⟨[], (fsmLoop after ln MachineState.AngleClosed 0 '<' []).2.2.1, ln⟩, true) := by
      rw [next_ptree_string_st]
      simp [next_ptree_string, skipUntilLt]
    rw [smain_splitter_go, hnext2]
    simp

/-- Witness for the amended C3 on the truncated input `<a`. -/
theorem splitter_truncated_input_behavior_witness :
    next_ptree_string [("f", "<a".data)] 1 0 =
      (['<', 'a'], ⟨[("f", [])], 1, 1⟩, false) ∧
    (['<', 'a'] : List Char) ≠ [] ∧
    smain_splitter ⟨[("f", "<a".data)], 1, 0⟩ =
      [{ job_num := 0, xml_string := String.mk ['<', 'a'], file_name := "f",
         start_line_number := (1 : Nat), end_line_number := (1 : Nat) }] :=
  ⟨by decide, by decide,
   splitter_truncated_input_behavior "f" "<a".data 1 0 ['<', 'a']
     ⟨[("f", [])], 1, 1⟩ (by decide) (by decide)⟩

/-- C4 (counterexample to the claim as stated): fed
`<a attr="/>" />text<b></b>`, the splitter emits two records, but the
first is `<a attr="/>` — the `/>` inside the quoted attribute value ends
the record, because the lexical DFA does not track quoting — not the
claimed `<a attr="/>" />`. -/
theorem splitter_quoted_attribute_records :
    (smain_splitter (singleFileState "f" "<a attr=\"/>\" />text<b></b>")).map
        Job.xml_string = ["<a attr=\"/>", "<b></b>"] ∧
    ("<a attr=\"/>" : String) ≠ "<a attr=\"/>\" />" := by
  constructor
  · rfl
  · decide

/-- C4 (amended): on the byte stream `<a attr="/>" />text<b></b>` the
splitter emits exactly the two records `<a attr="/>` and `<b></b>`, in
that order; interleaving newlines, the emitted line spans cover each
record's first and last byte (the first record spans lines 2-3 of the
newline-interleaved input, the second lines 4-4). -/
theorem splitter_quoted_attribute_behavior :
    (smain_splitter (singleFileState "f" "<a attr=\"/>\" />text<b></b>")).map
        (fun j => (j.xml_string, j.start_line_number, j.end_line_number)) =
      [("<a attr=\"/>", 1, 1), ("<b></b>", 1, 1)] ∧
    (smain_splitter (singleFileState "f" "\n<a\nattr=\"/>\" />text\n<b></b>")).map
        (fun j => (j.xml_string, j.start_line_number, j.end_line_number)) =
      [("<a\nattr=\"/>", 2, 3), ("<b></b>", 4, 4)] := by
  exact ⟨rfl, rfl⟩

/-- C5: a producer returning from push leaves the queue at size at most
HIGH·N (it waited for size < HIGH·N before emplacing); a producer
finding the queue at or above HIGH·N with neither flag set blocks; and a
consumer wakes the producer only when the observed size is at most
LOW·N. -/
theorem workqueue_backpressure (N : Nat) (st : QueueState) :
    (∀ ns, produce_job_to_extractor N st = ProduceResult.enqueued ns →
        ns ≤ N * HIGH_WATRE_MARK) ∧
    (produce_job_to_extractor N st = ProduceResult.blocked ↔
      (N * HIGH_WATRE_MARK ≤ st.size ∧ st.splitter_finished = false ∧
        st.early_terminating = false)) ∧
    (∀ size, consumer_notifies_nonfull N size = true ↔
        size ≤ N * LOW_WATER_MARK) := by
  obtain ⟨sz, fin, term⟩ := st
  cases fin <;> cases term <;>
    by_cases hsz : sz < N * HIGH_WATRE_MARK <;>
      simp [produce_job_to_extractor, produce_wait_predicate,
        consumer_notifies_nonfull, hsz] <;>
      omega

/-- Witness for C5: with one worker, a push at size 128 = HIGH·1 blocks,
and a push at size 5 returns with the queue within the bound. -/
theorem workqueue_backpressure_witness :
    produce_job_to_extractor 1 ⟨128, false, false⟩ = ProduceResult.blocked ∧
    6 ≤ 1 * HIGH_WATRE_MARK :=
  ⟨(workqueue_backpressure 1 ⟨128, false, false⟩).2.1.mpr ⟨by decide, rfl, rfl⟩,
   (workqueue_backpressure 1 ⟨5, false, false⟩).1 6 (by decide)⟩

/-- Transitivity of the dedup comparison against a remembered maximum. -/
theorem latestLE_trans {l : Option Int} {a b : Int} (h : latestLE l a = true)
    (hab : a ≤ b) : latestLE l b = true := by
  cases l with
  | none => rfl
  | some m =>
    simp only [latestLE, decide_eq_true_eq] at h ⊢
    omega

/-- Relation between the remembered maximum after a dedup run and the
timestamps the run emitted: a later timestamp clears the remembered
maximum exactly when it clears the starting maximum and every emitted
timestamp. -/
theorem dedupRun_latestLE : ∀ (recs : List (PTree × Job)) (s s' : DedupState),
    dedupRun s recs = some s' → ∀ raw : Int,
    (latestLE s'.latest raw = true ↔
      (latestLE s.latest raw = true ∧
        ∀ t ∈ emittedTimestampsAux s.latest recs, t ≤ raw))
  | [], s, s', h, raw => by
    rw [dedupRun] at h
    injection h with h
    subst h
    simp [emittedTimestampsAux]
  | (tree, job) :: rest, s, s', h, raw => by
    rw [dedupRun] at h
    cases hts : get_packet_time_stamp tree with
    | none =>
      rw [dedupApply, echo_packet_if_new, hts] at h
      simp at h
    | some ts =>
      by_cases hraw : timestamp_str2long_microsec_hack ts = -1
      · have happ : dedupApply s tree job =
            some { s with errlog := s.errlog ++ [timestampWarnMsg ts] } := by
          simp [dedupApply, echo_packet_if_new, hts, hraw]
        rw [happ] at h
        have ih := dedupRun_latestLE rest _ s' h raw
        have hemit : emittedTimestampsAux s.latest ((tree, job) :: rest) =
            emittedTimestampsAux s.latest rest := by
          simp [emittedTimestampsAux, hts, hraw]
        rw [hemit]
        exact ih
      · by_cases hcond : latestLE s.latest (timestamp_str2long_microsec_hack ts) = true
        · have happ : dedupApply s tree job =
              some { s with output := s.output ++ [job.xml_string],
                            latest := some (timestamp_str2long_microsec_hack ts),
                            latest_str := ts } := by
            simp [dedupApply, echo_packet_if_new, hts, hraw, hcond]
          rw [happ] at h
          have ih := dedupRun_latestLE rest _ s' h raw
          have hemit : emittedTimestampsAux s.latest ((tree, job) :: rest) =
              timestamp_str2long_microsec_hack ts ::
                emittedTimestampsAux (some (timestamp_str2long_microsec_hack ts)) rest := by
            simp [emittedTimestampsAux, hts, hraw, hcond]
          rw [hemit]
          rw [ih]
          simp only [latestLE, decide_eq_true_eq, List.mem_cons]
          constructor
          · rintro ⟨h1, h2⟩
            exact ⟨latestLE_trans hcond h1, fun t ht => by
              rcases ht with rfl | ht
              · exact h1
              · exact h2 t ht⟩
          · rintro ⟨h1, h2⟩
            exact ⟨h2 _ (Or.inl rfl), fun t ht => h2 t (Or.inr ht)⟩
        · have happ : dedupApply s tree job =
              some { s with errlog := s.errlog ++
                  ["Dropping packet: " ++ ts ++ " < " ++ s.latest_str] } := by
            simp [dedupApply, echo_packet_if_new, hts, hraw, hcond]
          rw [happ] at h
          have ih := dedupRun_latestLE rest _ s' h raw
          have hemit : emittedTimestampsAux s.latest ((tree, job) :: rest) =
              emittedTimestampsAux s.latest rest := by
            simp [emittedTimestampsAux, hts, hraw, hcond]
          rw [hemit]
          exact ih

/-- C6: in dedup mode, a record whose timestamp parses is written to the
output iff its microsecond timestamp is ≥ the timestamps of all
previously emitted records of the run; emission raises the remembered
maximum to the record's own timestamp, and a dropped record leaves the
state unchanged except for a dropping message on standard error. -/
theorem dedup_emits_iff_ge_all_previous (pre : List (PTree × Job)) (tree : PTree)
    (job : Job) (s : DedupState)
    (hrun : dedupRun dedupInitState pre = some s)
    (ts : String) (hts : get_packet_time_stamp tree = some ts)
    (hraw : timestamp_str2long_microsec_hack ts ≠ -1) :
    ∃ s', dedupApply s tree job = some s' ∧
      ((∀ t ∈ emittedTimestamps pre, t ≤ timestamp_str2long_microsec_hack ts) →
        s' = { s with output := s.output ++ [job.xml_string],
                      latest := some (timestamp_str2long_microsec_hack ts),
                      latest_str := ts }) ∧
      ((¬ ∀ t ∈ emittedTimestamps pre, t ≤ timestamp_str2long_microsec_hack ts) →
        s' = { s with errlog :=
          s.errlog ++ ["Dropping packet: " ++ ts ++ " < " ++ s.latest_str] }) ∧
      (s'.output = s.output ++ [job.xml_string] ↔
        ∀ t ∈ emittedTimestamps pre, t ≤ timestamp_str2long_microsec_hack ts) := by
  have hiff := dedupRun_latestLE pre dedupInitState s hrun
    (timestamp_str2long_microsec_hack ts)
  have hinit : latestLE dedupInitState.latest (timestamp_str2long_microsec_hack ts)
      = true := rfl
  rw [hinit] at hiff
  simp only [true_and] at hiff
  rw [emittedTimestamps] at *
  by_cases hcond : latestLE s.latest (timestamp_str2long_microsec_hack ts) = true
  · refine ⟨{ s with output := s.output ++ [job.xml_string],
                     latest := some (timestamp_str2long_microsec_hack ts),
                     latest_str := ts }, ?_, ?_, ?_, ?_⟩
    · simp [dedupApply, echo_packet_if_new, hts, hraw, hcond]
    · intro _; rfl
    · intro hnot
      exact absurd (hiff.mp hcond) hnot
    · simp only [true_iff]
      exact hiff.mp hcond
  · refine ⟨{ s with errlog := s.errlog ++
                       ["Dropping packet: " ++ ts ++ " < " ++ s.latest_str] },
      ?_, ?_, ?_, ?_⟩
    · simp [dedupApply, echo_packet_if_new, hts, hraw, hcond]
    · intro hall
      exact absurd (hiff.mpr hall) hcond
    · intro _; rfl
    · constructor
      · intro hcontra
        have := congrArg List.length hcontra
        simp at this
      · intro hall
        exact absurd (hiff.mpr hall) hcond

/-- Witness for C6: after emitting a record timestamped
2020-01-01 00:00:00 (UTC+8), a record timestamped one second later is
emitted and raises the remembered maximum. -/
theorem dedup_emits_iff_ge_all_previous_witness :
    ∃ s', dedupApply ⟨some 1577865600000000, "2020-01-01 00:00:00", ["A"], []⟩
        (sampleTimestampTree "2020-01-01 00:00:01") (sampleJob 1 "B") = some s' ∧
      ((∀ t ∈ emittedTimestamps
          [(sampleTimestampTree "2020-01-01 00:00:00", sampleJob 0 "A")],
          t ≤ timestamp_str2long_microsec_hack "2020-01-01 00:00:01") →
        s' = { latest := some (timestamp_str2long_microsec_hack "2020-01-01 00:00:01"),
               latest_str := "2020-01-01 00:00:01",
               output := ["A", "B"],
               errlog := [] }) ∧
      ((¬ ∀ t ∈ emittedTimestamps
          [(sampleTimestampTree "2020-01-01 00:00:00", sampleJob 0 "A")],
          t ≤ timestamp_str2long_microsec_hack "2020-01-01 00:00:01") →
        s' = { latest := some 1577865600000000,
               latest_str := "2020-01-01 00:00:00",
               output := ["A"],
               errlog := ["Dropping packet: 2020-01-01 00:00:01 < 2020-01-01 00:00:00"] }) ∧
      (s'.output = ["A"] ++ ["B"] ↔
        ∀ t ∈ emittedTimestamps
          [(sampleTimestampTree "2020-01-01 00:00:00", sampleJob 0 "A")],
          t ≤ timestamp_str2long_microsec_hack "2020-01-01 00:00:01") :=
  dedup_emits_iff_ge_all_previous
    [(sampleTimestampTree "2020-01-01 00:00:00", sampleJob 0 "A")]
    (sampleTimestampTree "2020-01-01 00:00:01") (sampleJob 1 "B")
    ⟨some 1577865600000000, "2020-01-01 00:00:00", ["A"], []⟩
    (by decide) "2020-01-01 00:00:01" (by decide) (by decide)

/-- C7 (counterexample to the claim as stated): with window 1 000 000 µs
and the adjacent reverse pair P (timestamp 2 000 000) before
Q (timestamp 0) — a pair outside the window — the output is Q then P
(ascending timestamp order), not the claimed arrival order P then Q. -/
theorem reorder_outside_window_not_arrival_order :
    reorderRunOutput 1000000 [(2000000, "P"), (0, "Q")] = ["Q", "P"] ∧
    (["Q", "P"] : List String) ≠ ["P", "Q"] := by
  exact ⟨rfl, by decide⟩

/-- C7 (amended): for two adjacent records P then Q with P's timestamp
greater than Q's, the run emits the pair in ascending timestamp order
(Q before P) in both cases: within the window the pair is reordered by
the sorted buffer, and outside the window Q is evicted to the output
immediately while P stays buffered — arrival order is not restored. -/
theorem reorder_adjacent_reverse_pair_sorted (t1 t2 tol : Int) (s1 s2 : String)
    (htol : 0 < tol) (hlt : t2 < t1) :
    reorderRunOutput tol [(t1, s1), (t2, s2)] = [s2, s1] := by
  have h0 : ¬ tol < 0 := by omega
  have hins1 : windowInsert t1 s1 [] = [(t1, s1)] := rfl
  have hev1 : evictOlder t1 tol [(t1, s1)] = ([], [(t1, s1)]) := by
    simp [evictOlder, h0]
  have hup1 : ReorderWindow.update ⟨tol, []⟩ t1 s1 = ([], ⟨tol, [(t1, s1)]⟩) := by
    simp [ReorderWindow.update, hins1, hev1]
  have hins2 : windowInsert t2 s2 [(t1, s1)] = [(t2, s2), (t1, s1)] := by
    simp [windowInsert, hlt]
  by_cases h2 : t1 - t2 > tol
  · have hev2 : evictOlder t1 tol [(t2, s2), (t1, s1)] = ([s2], [(t1, s1)]) := by
      simp [evictOlder, h2, h0]
    have hup2 : ReorderWindow.update ⟨tol, [(t1, s1)]⟩ t2 s2 =
        ([s2], ⟨tol, [(t1, s1)]⟩) := by
      simp [ReorderWindow.update, hins2, hev2]
    simp [reorderRunOutput, reorderUpdates, hup1, hup2, ReorderWindow.flush]
  · have hev2 : evictOlder t1 tol [(t2, s2), (t1, s1)] =
        ([], [(t2, s2), (t1, s1)]) := by
      simp [evictOlder, h2]
    have hup2 : ReorderWindow.update ⟨tol, [(t1, s1)]⟩ t2 s2 =
        ([], ⟨tol, [(t2, s2), (t1, s1)]⟩) := by
      simp [ReorderWindow.update, hins2, hev2]
    simp [reorderRunOutput, reorderUpdates, hup1, hup2, ReorderWindow.flush]

/-- Witness for the amended C7 at the window of S4. -/
theorem reorder_adjacent_reverse_pair_sorted_witness :
    reorderRunOutput 1000000 [(100000, "P"), (500, "Q")] = ["Q", "P"] :=
  reorder_adjacent_reverse_pair_sorted 100000 500 1000000 "P" "Q"
    (by decide) (by decide)

/-- C8 (counterexample to the claim as stated): a thrown object that is
not one of the handled exception types reaches `catch (...)`, which
prints its report but then falls through to `return 0` — main returns 0,
not 1. -/
theorem main_unknown_exception_returns_zero :
    mainReturnValue (some CaughtException.nonStdObject) = 0 ∧ (0 : Int) ≠ 1 := by
  exact ⟨rfl, by decide⟩

/-- C8 (amended): main reports every caught exception to standard error;
it returns 1 for every caught exception except a thrown object that is
none of the handled types (the `catch (...)` case), for which it returns
0 after reporting; 0 is also the return value on success. -/
theorem main_exit_codes :
    mainReturnValue none = 0 ∧
    (∀ e : CaughtException, e ≠ CaughtException.nonStdObject →
      mainReturnValue (some e) = 1) ∧
    mainReturnValue (some CaughtException.nonStdObject) = 0 ∧
    (∀ e : CaughtException, mainReportsException (some e) = true) := by
  refine ⟨rfl, ?_, rfl, fun e => rfl⟩
  intro e he
  cases e <;> first | rfl | exact absurd rfl he

/-- Witness for the amended C8 at a concrete caught exception. -/
theorem main_exit_codes_witness :
    mainReturnValue (some CaughtException.argumentError) = 1 :=
  main_exit_codes.2.1 CaughtException.argumentError (by decide)

/-- C9: `kill_splitter` stores `false` — not `true` — into the
splitter's early-terminating flag and performs no condition-variable
notification, so a `kill_splitter` call never makes the splitter's main
loop observe a termination request: the loop behaves exactly as in an
unkilled run. -/
theorem kill_splitter_never_observed (prev : Bool) (st : SplitterState) :
    (kill_splitter prev).terminating_flag = false ∧
    (kill_splitter prev).cv_notifications = 0 ∧
    smain_splitter_guarded (kill_splitter prev).terminating_flag st =
      smain_splitter st :=
  ⟨rfl, rfl, rfl⟩

/-- C10: in dedup and reorder modes, a record whose timestamp string
matches neither `scanf` pattern gets exactly one submitted task for its
sequence number, whose closure only appends the warning message to
standard error: the record's text is never written to the output and the
cross-packet state (remembered maximum, reorder window) is unchanged. -/
theorem unparseable_timestamp_dropped (tree : PTree) (job : Job) (ts : String)
    (hts : get_packet_time_stamp tree = some ts)
    (hscan : scanTimestamp ts = none) :
    (∃ w, echo_packet_if_new tree job = some ⟨job.job_num, w⟩ ∧
      ∀ s : DedupState, w s = { s with errlog := s.errlog ++ [timestampWarnMsg ts] }) ∧
    (∃ w, update_reorder_window tree job = some ⟨job.job_num, w⟩ ∧
      ∀ s : ReorderState, w s = { s with errlog := s.errlog ++ [timestampWarnMsg ts] }) := by
  have hraw : timestamp_str2long_microsec_hack ts = -1 := by
    rw [timestamp_str2long_microsec_hack, hscan]
  constructor
  · exact ⟨_, by simp [echo_packet_if_new, hts, hraw], fun s => rfl⟩
  · exact ⟨_, by simp [update_reorder_window, hts, hraw], fun s => rfl⟩

/-- Witness for C10 at a record with timestamp string `garbage`. -/
theorem unparseable_timestamp_dropped_witness :
    (∃ w, echo_packet_if_new (sampleTimestampTree "garbage") (sampleJob 0 "X") =
        some ⟨0, w⟩ ∧
      ∀ s : DedupState, w s = { s with errlog := s.errlog ++ [timestampWarnMsg "garbage"] }) ∧
    (∃ w, update_reorder_window (sampleTimestampTree "garbage") (sampleJob 0 "X") =
        some ⟨0, w⟩ ∧
      ∀ s : ReorderState, w s = { s with errlog := s.errlog ++ [timestampWarnMsg "garbage"] }) :=
  unparseable_timestamp_dropped (sampleTimestampTree "garbage") (sampleJob 0 "X")
    "garbage" (by decide) rfl

end Miutils
